import Mathlib

/-!
# Verification of the Sudoku solver core (`controllers/sudoku-solver.js`)

A shallow embedding of the constraint-checking and backtracking-solve engine.
Grids are `List Char` (the JavaScript code treats puzzle strings and arrays of
one-character strings interchangeably; both behave as a sequence of characters
for every operation performed on them).  Out-of-range indexing, which yields
`undefined` in JavaScript (never equal to any one-character string), is
modelled with `List.get?`, whose `none` result is never equal to `some c`.

The recursive solver mutates a single array in place; the embedding passes the
array state explicitly and returns the final state of the array.  The
unbounded JavaScript recursion is given a fuel parameter: every recursive call
of the source is made on a grid with strictly fewer empty markers (a digit is
stored into the current empty cell immediately before each recursive call), so
for an 81-cell grid the recursion depth never exceeds 82 and a fuel of 82
reproduces the source behaviour exactly.
-/

/-- `${value}` for the single-digit numbers used throughout the source. -/
def digitChar (v : Nat) : Char := Char.ofNat (48 + v)

/-- JavaScript unary plus on a one-character digit string (`+puzzle[i]`). -/
def charToValue (c : Char) : Nat := c.toNat - 48

/-- The row-letter table `"ABCDEFGHI"` of `toLetterNumberCoordinate`. -/
def rowLetters : List Char := ['A', 'B', 'C', 'D', 'E', 'F', 'G', 'H', 'I']

/-- `toBaseZeroCoordinate(rowLetter, colNumber)`: converts a row letter and a
1-based column number to the zero-based x, y and linear cell index.  Returns
`none` (the source returns `false`) when the row letter is outside `A`-`I` or
the column is outside 1-9. -/
def toBaseZeroCoordinate (rowLetter : Char) (colNumber : Int) : Option (Nat × Nat × Nat) :=
  let capitalACode : Int := 65
  let rowCoord : Int := (rowLetter.toNat : Int) - capitalACode
  let colCoord : Int := colNumber - 1
  if rowCoord < 0 ∨ rowCoord > 8 ∨ colCoord < 0 ∨ colCoord > 8 then
    none
  else
    some (colCoord.toNat, rowCoord.toNat, 9 * rowCoord.toNat + colCoord.toNat)

/-- `toLetterNumberCoordinate(cellNumber)`: the inverse mapping from a linear
cell index to a letter-and-number coordinate. -/
def toLetterNumberCoordinate (cellNumber : Nat) : Char × Int :=
  (rowLetters.getD (cellNumber / 9) 'A', (cellNumber % 9 : Nat) + 1)

/-- `checkRowPlacement`: slices the 9 cells of the row, removes the first
occurrence of `value` when the target cell already holds `value`, and reports
valid iff `value` does not (otherwise) appear in the row.  The `none`
coordinate branch is unreachable for the in-range coordinates used by every
caller (there the source computes with `NaN` indices and an empty slice). -/
def checkRowPlacement (puzzleString : List Char) (row : Char) (column : Int)
    (value : Nat) : Bool :=
  match toBaseZeroCoordinate row column with
  | none => true
  | some (_, y, cell) =>
    let rowStart := 9 * y
    let rowString := (puzzleString.drop rowStart).take 9
    let rowString2 :=
      if puzzleString[cell]? = some (digitChar value) then
        rowString.erase (digitChar value)
      else rowString
    ¬ (digitChar value) ∈ rowString2

/-- `checkColPlacement`: collects the 9 cells of the column, skipping the
target cell when it already holds `value`, and reports valid iff `value` does
not appear among the collected cells. -/
def checkColPlacement (puzzleString : List Char) (row : Char) (column : Int)
    (value : Nat) : Bool :=
  match toBaseZeroCoordinate row column with
  | none => true
  | some (x, _, cell) =>
    let colStart := x
    let colArray :=
      ((List.range 9).filter (fun i =>
        ¬ (cell = colStart + i * 9 ∧ puzzleString[cell]? = some (digitChar value)))).map
        (fun i => puzzleString[colStart + i * 9]?)
    ¬ (some (digitChar value)) ∈ colArray

/-- `checkRegionPlacement`: collects the 9 cells of the containing 3x3 region,
skipping the target cell when it already holds `value`, and reports valid iff
`value` does not appear among the collected cells.  (For an out-of-range
coordinate the source destructures `false` and throws; that branch is
unreachable for the in-range coordinates used by every caller.) -/
def checkRegionPlacement (puzzleString : List Char) (row : Char) (column : Int)
    (value : Nat) : Bool :=
  match toBaseZeroCoordinate row column with
  | none => false
  | some (x, y, cell) =>
    let regionTopLeftX := x / 3 * 3
    let regionTopLeftY := y / 3 * 3
    let regionCells :=
      (List.range 3).flatMap (fun i =>
        (List.range 3).map (fun j => 9 * (regionTopLeftY + i) + (regionTopLeftX + j)))
    let regionArray :=
      (regionCells.filter (fun rc =>
        ¬ (cell = rc ∧ puzzleString[rc]? = some (digitChar value)))).map
        (fun rc => puzzleString[rc]?)
    ¬ (some (digitChar value)) ∈ regionArray

/-- `checkPlacement`: the conjunction of the row, column and region checks. -/
def checkPlacement (puzzleString : List Char) (row : Char) (column : Int)
    (value : Nat) : Bool :=
  checkRowPlacement puzzleString row column value &&
  checkColPlacement puzzleString row column value &&
  checkRegionPlacement puzzleString row column value

/-- The character class of the validation regex `/^[\.\d]{81}$/`:
a period or a decimal digit (codes 48-57). -/
def isPuzzleChar (c : Char) : Bool := c = '.' ∨ (48 ≤ c.toNat ∧ c.toNat ≤ 57)

/-- The return shape of `validate`. -/
structure ValidateResult where
  ok : Bool
  error : Option String
  deriving DecidableEq, Repr

/-- `validate(puzzleString)`: empty input, then length, then character class. -/
def validate (puzzleString : List Char) : ValidateResult :=
  if puzzleString.isEmpty then
    { ok := false, error := some "No puzzle string given." }
  else if puzzleString.length ≠ 81 then
    { ok := false, error := some "Expected puzzle to be 81 characters long" }
  else if ¬ puzzleString.all isPuzzleChar then
    { ok := false, error := some "Invalid characters in puzzle" }
  else
    { ok := true, error := none }

/-- The return shape of `checkSolve`. -/
structure CheckSolvedResult where
  solved : Bool
  error : Option String
  conflict : Option (List String)
  deriving DecidableEq, Repr

/-- A single apostrophe character, used in the conflict message of
`checkSolve` (written via its code to keep the source text scanner-friendly). -/
def squote : String := String.mk [Char.ofNat 39]

/-- The message `Cell '<row><col>' contains conflicts.` -/
def conflictMessage (row : Char) (col : Int) : String :=
  "Cell " ++ squote ++ String.mk [row] ++ toString col ++ squote ++ " contains conflicts."

/-- The cell-scanning loop of `checkSolve` (`for (let i = 0; ...)`), starting
at index `i`.  The counter `n` is the number of loop iterations left,
`puzzle.length - i`; the source loop is bounded by the string length, so the
counter never runs out before the index does. -/
def checkSolveLoop (puzzle : List Char) : Nat → Nat → CheckSolvedResult
  | 0, _ => { solved := true, error := none, conflict := none }
  | n + 1, i =>
    match puzzle[i]? with
    | none => { solved := true, error := none, conflict := none }
    | some c =>
      if c = '.' then
        { solved := false, error := some "Puzzle is not solved", conflict := none }
      else
        let rc := toLetterNumberCoordinate i
        let cr := checkRowPlacement puzzle rc.1 rc.2 (charToValue c)
        let cc := checkColPlacement puzzle rc.1 rc.2 (charToValue c)
        let cg := checkRegionPlacement puzzle rc.1 rc.2 (charToValue c)
        let conflicts :=
          (if cr then [] else ["row"]) ++
          (if cc then [] else ["column"]) ++
          (if cg then [] else ["region"])
        if conflicts.length > 0 then
          { solved := false, error := some (conflictMessage rc.1 rc.2),
            conflict := some conflicts }
        else
          checkSolveLoop puzzle n (i + 1)

/-- `checkSolve(puzzle)`: validates the string, then walks every cell in
order, rejecting at the first blank cell or the first cell whose row, column
or region check fails. -/
def checkSolve (puzzle : List Char) : CheckSolvedResult :=
  let validation := validate puzzle
  if validation.ok = false then
    { solved := false, error := validation.error, conflict := none }
  else
    checkSolveLoop puzzle puzzle.length 0

/-- The scan of `getNextEmptyCell` for the first index holding `"."`. -/
def findEmptyIdx : List Char → Option Nat
  | [] => none
  | c :: rest => if c = '.' then some 0 else (findEmptyIdx rest).map (· + 1)

/-- `getNextEmptyCell(puzzleString)`: the first empty cell's coordinate, its
linear index, and the digits 1-9 that pass the combined placement check
there; `none` (the source returns `false`) when the grid is full. -/
def getNextEmptyCell (puzzleString : List Char) : Option (Char × Int × Nat × List Nat) :=
  match findEmptyIdx puzzleString with
  | none => none
  | some i =>
    let rc := toLetterNumberCoordinate i
    some (rc.1, rc.2, i,
      ((List.range 9).map (· + 1)).filter
        (fun v => checkPlacement puzzleString rc.1 rc.2 v))

/-- The recursive body of `solve` (the `validateFirst = false` continuation).
Takes the current state of the cell array and returns its final state; the
source's returned `{solution}/{error}` objects of recursive calls are
discarded, so the array state is the effect of a recursive call.  Fuel bounds
the recursion depth (see the module comment). -/
def solveRec : Nat → List Char → List Char
  | 0, puzzleString => puzzleString
  | fuel + 1, puzzleString =>
    match getNextEmptyCell puzzleString with
    | none => puzzleString
    | some (row, col, index, possible) =>
      let afterTries :=
        if possible.length = 1 then
          solveRec fuel (puzzleString.set index (digitChar (possible.headD 0)))
        else
          possible.foldl
            (fun g value =>
              if checkPlacement g row col value = true then
                solveRec fuel (g.set index (digitChar value))
              else g)
            puzzleString
      match getNextEmptyCell afterTries with
      | some _ => afterTries.set index '.'
      | none => afterTries

/-- The candidate loop of `solve` (`for (const value of possible)`), extracted
from the body of `solveRec` so that lemmas can name it. -/
def tryValues (fuel : Nat) (row : Char) (col : Int) (index : Nat)
    (g : List Char) (vs : List Nat) : List Char :=
  vs.foldl
    (fun g value =>
      if checkPlacement g row col value = true then
        solveRec fuel (g.set index (digitChar value))
      else g)
    g

/-- The result shape of `solve`. -/
inductive SolveResult where
  | solution : List Char → SolveResult
  | error : String → SolveResult
  deriving DecidableEq, Repr

/-- Fuel sufficient for any 81-cell grid: each recursive call of the source
fills one empty cell first, so the depth is at most 81 + 1. -/
def solveFuel : Nat := 82

/-- Top-level `solve(puzzleString)`: validate, run the recursive search on the
cell array, and answer from the final array state. -/
def solve (puzzleString : List Char) : SolveResult :=
  let validation := validate puzzleString
  if validation.ok = false then
    SolveResult.error (validation.error.getD "")
  else
    let final := solveRec solveFuel puzzleString
    if '.' ∈ final then SolveResult.error "Puzzle cannot be solved"
    else SolveResult.solution final

/-- One inner-loop pass of `generate` for the current cell: draw from the
digit pool, place on success (also drawing the hide coin), splice and retry on
failure, dead-end when the pool empties.  `rnd` is the stream of random
outcomes (each draw is taken modulo its range), `k` the index of the next
outcome; the counter bounds the pool length, which shrinks by one per
iteration, so it never runs out before the pool does. -/
def genCellLoop (rnd : Nat → Nat) (gStr : List Char) (row : Char) (col : Int) :
    Nat → Nat → List Nat → Option (Nat × Bool) × Nat
  | 0, k, _ => (none, k)
  | pfuel + 1, k, digits =>
    let randomIndex := rnd k % digits.length
    let digit := digits.getD randomIndex 0
    if checkPlacement gStr row col digit = true then
      (some (digit, 500 ≤ rnd (k + 1) % 1000 + 1), k + 2)
    else
      let digits2 := digits.eraseIdx randomIndex
      if digits2.length = 0 then (none, k + 1)
      else genCellLoop rnd gStr row col pfuel (k + 1) digits2

/-- The outer cell loop of `generate` (`while (cursor < 81)`), carrying the
partially built digit array, the hidden-index list and the cursor; a dead end
clears everything and restarts.  Fuel bounds the number of outer iterations
(the source may loop forever for adversarial random streams). -/
def genLoop (rnd : Nat → Nat) :
    Nat → Nat → List Nat → List Nat → Nat → Option (List Nat × List Nat)
  | 0, _, _, _, _ => none
  | fuel + 1, k, puzzle, hidden, cursor =>
    if cursor < 81 then
      let rc := toLetterNumberCoordinate cursor
      match genCellLoop rnd (puzzle.map digitChar) rc.1 rc.2 9 k
          [1, 2, 3, 4, 5, 6, 7, 8, 9] with
      | (some (digit, shouldBeHidden), k2) =>
        genLoop rnd fuel k2 (puzzle ++ [digit])
          (if shouldBeHidden then hidden ++ [cursor] else hidden) (cursor + 1)
      | (none, k2) => genLoop rnd fuel k2 [] [] 0
    else some (puzzle, hidden)

/-- `generate()`: build a full grid cell by cell, then blank out the cells
marked hidden.  Parameterised by the random stream and outer-loop fuel;
`some s` models a terminating run that returns the puzzle string `s`. -/
def generate (rnd : Nat → Nat) (fuel : Nat) : Option (List Char) :=
  match genLoop rnd fuel 0 [] [] 0 with
  | none => none
  | some (puzzle, hidden) =>
    some (hidden.foldl (fun p i => p.set i '.') (puzzle.map digitChar))

theorem digitChar_ne_dot (v : Nat) : digitChar v ≠ '.' := by
  intro h
  have h2 : (digitChar v).toNat = 46 := by rw [h]; rfl
  unfold digitChar Char.ofNat at h2
  split at h2
  · simp only [Char.ofNatAux, Char.toNat, UInt32.toNat, BitVec.toNat_ofNatLt] at h2
    omega
  · simp only [Char.toNat, UInt32.toNat] at h2
    simp at h2

theorem digitChar_toNat : ∀ v, v ≤ 9 → (digitChar v).toNat = 48 + v := by decide

theorem charToNat_inj {a b : Char} (h : a.toNat = b.toNat) : a = b :=
  Char.ext (UInt32.ext h)

theorem toCoord_roundTrip : ∀ i, i < 81 →
    toBaseZeroCoordinate (toLetterNumberCoordinate i).1 (toLetterNumberCoordinate i).2 =
      some (i % 9, i / 9, i) := by decide

theorem toBaseZero_eq_some {r : Char} {c : Int} {x y idx : Nat}
    (h : toBaseZeroCoordinate r c = some (x, y, idx)) :
    x ≤ 8 ∧ y ≤ 8 ∧ idx = 9 * y + x ∧ (r.toNat : Int) = 65 + y ∧ c = x + 1 := by
  simp only [toBaseZeroCoordinate] at h
  by_cases hcond : ((r.toNat : Int) - 65 < 0 ∨ (r.toNat : Int) - 65 > 8 ∨ c - 1 < 0 ∨ c - 1 > 8)
  · rw [if_pos hcond] at h; cases h
  · rw [if_neg hcond] at h
    push_neg at hcond
    obtain ⟨h1, h2, h3, h4⟩ := hcond
    injection h with h
    have hx : ((c - 1).toNat : Nat) = x := congrArg (fun p => p.1) h
    have hy : ((r.toNat : Int) - 65).toNat = y := congrArg (fun p => p.2.1) h
    have hidx : 9 * ((r.toNat : Int) - 65).toNat + (c - 1).toNat = idx :=
      congrArg (fun p => p.2.2) h
    refine ⟨by omega, by omega, by omega, by omega, by omega⟩

theorem rowSlice_getElem? (g : List Char) (y k : Nat) (hk : k < 9) :
    ((g.drop (9 * y)).take 9)[k]? = g[9 * y + k]? := by
  rw [List.getElem?_take_of_lt hk, List.getElem?_drop]

theorem mem_rowSlice_iff {g : List Char} {y : Nat} {a : Char} :
    a ∈ (g.drop (9 * y)).take 9 ↔ ∃ k, k < 9 ∧ g[9 * y + k]? = some a := by
  constructor
  · intro ha
    obtain ⟨n, hn⟩ := List.mem_iff_getElem?.mp ha
    have hn9 : n < 9 := by
      by_contra h9
      rw [List.getElem?_eq_none (by simp [List.length_take]; omega)] at hn
      cases hn
    rw [rowSlice_getElem? g y n hn9] at hn
    exact ⟨n, hn9, hn⟩
  · rintro ⟨k, hk9, hk⟩
    exact List.mem_iff_getElem?.mpr ⟨k, by rw [rowSlice_getElem? g y k hk9]; exact hk⟩

theorem count_le_one_iff_unique (l : List Char) (a : Char) :
    l.count a ≤ 1 ↔ ∀ m n : Nat, l[m]? = some a → l[n]? = some a → m = n := by
  induction l with
  | nil => simp
  | cons b t ih =>
    by_cases hba : b = a
    · subst hba
      simp only [List.count_cons_self]
      constructor
      · intro h m n hm hn
        have hnot : b ∉ t := List.count_eq_zero.mp (by omega)
        match m, n with
        | 0, 0 => rfl
        | 0, n' + 1 =>
          exact absurd (List.mem_iff_getElem?.mpr ⟨n', by simpa using hn⟩) hnot
        | m' + 1, n =>
          exact absurd (List.mem_iff_getElem?.mpr ⟨m', by simpa using hm⟩) hnot
      · intro h
        have hnot : b ∉ t := by
          intro hmem
          obtain ⟨n', hn'⟩ := List.mem_iff_getElem?.mp hmem
          have := h 0 (n' + 1) (by simp) (by simpa using hn')
          omega
        rw [List.count_eq_zero.mpr hnot]
    · rw [List.count_cons_of_ne (Ne.symm hba)]
      rw [ih]
      constructor
      · intro h m n hm hn
        match m, n with
        | 0, _ => simp at hm; exact absurd hm hba
        | _, 0 => simp at hn; exact absurd hn hba
        | m' + 1, n' + 1 =>
          simp only [List.getElem?_cons_succ] at hm hn
          have := h m' n' hm hn
          omega
      · intro h m n hm hn
        have := h (m + 1) (n + 1) (by simpa using hm) (by simpa using hn)
        omega

theorem not_mem_erase_self_iff (l : List Char) (a : Char) :
    a ∉ l.erase a ↔ l.count a ≤ 1 := by
  rw [← List.count_eq_zero, List.count_erase_self]
  omega

theorem checkRowPlacement_iff {g : List Char} {r : Char} {c : Int} {x y idx v : Nat}
    (hco : toBaseZeroCoordinate r c = some (x, y, idx)) :
    checkRowPlacement g r c v = true ↔
      ∀ k, k < 9 → g[9 * y + k]? = some (digitChar v) → 9 * y + k = idx := by
  obtain ⟨hx8, hy8, hidx, -, -⟩ := toBaseZero_eq_some hco
  unfold checkRowPlacement
  rw [hco]
  simp only [decide_eq_true_eq]
  by_cases hcell : g[idx]? = some (digitChar v)
  · rw [if_pos hcell, not_mem_erase_self_iff, count_le_one_iff_unique]
    constructor
    · intro h k hk9 hkP
      have h1 : ((g.drop (9 * y)).take 9)[k]? = some (digitChar v) := by
        rw [rowSlice_getElem? g y k hk9]; exact hkP
      have h2 : ((g.drop (9 * y)).take 9)[x]? = some (digitChar v) := by
        rw [rowSlice_getElem? g y x (by omega)]
        rw [show 9 * y + x = idx by omega]
        exact hcell
      have := h k x h1 h2
      omega
    · intro h m n hm hn
      have hm9 : m < 9 := by
        by_contra hm9
        rw [List.getElem?_eq_none (by simp [List.length_take]; omega)] at hm
        cases hm
      have hn9 : n < 9 := by
        by_contra hn9
        rw [List.getElem?_eq_none (by simp [List.length_take]; omega)] at hn
        cases hn
      rw [rowSlice_getElem? g y m hm9] at hm
      rw [rowSlice_getElem? g y n hn9] at hn
      have h1 := h m hm9 hm
      have h2 := h n hn9 hn
      omega
  · rw [if_neg hcell]
    constructor
    · intro h k hk9 hkP
      exact absurd (mem_rowSlice_iff.mpr ⟨k, hk9, hkP⟩) h
    · intro h hmem
      obtain ⟨k, hk9, hkP⟩ := mem_rowSlice_iff.mp hmem
      exact hcell ((h k hk9 hkP) ▸ hkP)

theorem checkColPlacement_iff {g : List Char} {r : Char} {c : Int} {x y idx v : Nat}
    (hco : toBaseZeroCoordinate r c = some (x, y, idx)) :
    checkColPlacement g r c v = true ↔
      ∀ k, k < 9 → g[x + k * 9]? = some (digitChar v) → x + k * 9 = idx := by
  unfold checkColPlacement
  rw [hco]
  simp only [decide_eq_true_eq]
  constructor
  · intro h k hk9 hkP
    by_contra hne
    apply h
    refine List.mem_map.mpr ⟨k, List.mem_filter.mpr ⟨List.mem_range.mpr hk9, ?_⟩, hkP⟩
    rw [decide_eq_true_eq]
    intro ⟨he, _⟩
    exact hne he.symm
  · intro h hmem
    obtain ⟨i, hif, hieq⟩ := List.mem_map.mp hmem
    obtain ⟨hir, hik⟩ := List.mem_filter.mp hif
    have hi9 := List.mem_range.mp hir
    have heq := h i hi9 hieq
    rw [decide_eq_true_eq] at hik
    exact hik ⟨heq.symm, heq ▸ hieq⟩

theorem checkRegionPlacement_iff {g : List Char} {r : Char} {c : Int} {x y idx v : Nat}
    (hco : toBaseZeroCoordinate r c = some (x, y, idx)) :
    checkRegionPlacement g r c v = true ↔
      ∀ i j, i < 3 → j < 3 →
        g[9 * (y / 3 * 3 + i) + (x / 3 * 3 + j)]? = some (digitChar v) →
        9 * (y / 3 * 3 + i) + (x / 3 * 3 + j) = idx := by
  unfold checkRegionPlacement
  rw [hco]
  simp only [decide_eq_true_eq]
  constructor
  · intro h i j hi3 hj3 hP
    by_contra hne
    apply h
    refine List.mem_map.mpr ⟨9 * (y / 3 * 3 + i) + (x / 3 * 3 + j),
      List.mem_filter.mpr ⟨?_, ?_⟩, hP⟩
    · exact List.mem_flatMap.mpr ⟨i, List.mem_range.mpr hi3,
        List.mem_map.mpr ⟨j, List.mem_range.mpr hj3, rfl⟩⟩
    · rw [decide_eq_true_eq]
      intro ⟨he, _⟩
      exact hne he.symm
  · intro h hmem
    obtain ⟨rcell, hrf, hreq⟩ := List.mem_map.mp hmem
    obtain ⟨hrc, hkept⟩ := List.mem_filter.mp hrf
    obtain ⟨i, hir, hjm⟩ := List.mem_flatMap.mp hrc
    obtain ⟨j, hjr, hcell⟩ := List.mem_map.mp hjm
    have hi3 := List.mem_range.mp hir
    have hj3 := List.mem_range.mp hjr
    subst hcell
    have heq := h i j hi3 hj3 hreq
    rw [decide_eq_true_eq] at hkept
    exact hkept ⟨heq.symm, heq ▸ hreq⟩

/-- Two cell indices share a row, a column or a 3x3 region. -/
def sameUnit (a b : Nat) : Prop :=
  a / 9 = b / 9 ∨ a % 9 = b % 9 ∨ (a / 9 / 3 = b / 9 / 3 ∧ a % 9 / 3 = b % 9 / 3)

instance (a b : Nat) : Decidable (sameUnit a b) := by unfold sameUnit; infer_instance

theorem sameUnit_symm {a b : Nat} (h : sameUnit a b) : sameUnit b a := by
  unfold sameUnit at h ⊢
  omega

/-- The semantic content of the combined placement check: within every unit of
`idx`, the digit appears nowhere except possibly at `idx` itself. -/
def PlacementOK (g : List Char) (idx : Nat) (v : Nat) : Prop :=
  ∀ j, j < 81 → sameUnit idx j → g[j]? = some (digitChar v) → j = idx

theorem checkPlacement_iff {g : List Char} {r : Char} {c : Int} {x y idx v : Nat}
    (hco : toBaseZeroCoordinate r c = some (x, y, idx)) :
    checkPlacement g r c v = true ↔ PlacementOK g idx v := by
  obtain ⟨hx8, hy8, hidx, -, -⟩ := toBaseZero_eq_some hco
  unfold checkPlacement
  rw [Bool.and_eq_true, Bool.and_eq_true, checkRowPlacement_iff hco,
    checkColPlacement_iff hco, checkRegionPlacement_iff hco]
  constructor
  · rintro ⟨⟨hrow, hcol⟩, hreg⟩ j hj81 hsu hjP
    rcases hsu with hsr | hsc | ⟨hg1, hg2⟩
    · have hj : j = 9 * y + j % 9 := by omega
      rw [hj] at hjP
      have := hrow (j % 9) (by omega) hjP
      omega
    · have hj : j = x + (j / 9) * 9 := by omega
      rw [hj] at hjP
      have := hcol (j / 9) (by omega) hjP
      omega
    · have hj : j = 9 * (y / 3 * 3 + (j / 9 - y / 3 * 3)) + (x / 3 * 3 + (j % 9 - x / 3 * 3)) := by
        omega
      rw [hj] at hjP
      have := hreg (j / 9 - y / 3 * 3) (j % 9 - x / 3 * 3) (by omega) (by omega) hjP
      omega
  · intro h
    refine ⟨⟨?_, ?_⟩, ?_⟩
    · intro k hk9 hkP
      exact h (9 * y + k) (by omega) (by unfold sameUnit; omega) hkP
    · intro k hk9 hkP
      exact h (x + k * 9) (by omega) (by unfold sameUnit; omega) hkP
    · intro i j hi3 hj3 hP
      exact h (9 * (y / 3 * 3 + i) + (x / 3 * 3 + j)) (by omega)
        (by unfold sameUnit; omega) hP

theorem placementOK_of_check {g : List Char} {r : Char} {c : Int} {idx v : Nat}
    (hi : idx < 81) (hrc : (r, c) = toLetterNumberCoordinate idx)
    (h : checkPlacement g r c v = true) : PlacementOK g idx v := by
  have hco := toCoord_roundTrip idx hi
  rw [← hrc] at hco
  exact (checkPlacement_iff hco).mp h

theorem check_of_placementOK {g : List Char} {r : Char} {c : Int} {idx v : Nat}
    (hi : idx < 81) (hrc : (r, c) = toLetterNumberCoordinate idx)
    (h : PlacementOK g idx v) : checkPlacement g r c v = true := by
  have hco := toCoord_roundTrip idx hi
  rw [← hrc] at hco
  exact (checkPlacement_iff hco).mpr h

/-- No digit (or any non-empty character) occurs twice within a row, column
or region of the grid. -/
def ConsistentG (g : List Char) : Prop :=
  ∀ i j, i < 81 → j < 81 → i ≠ j → sameUnit i j →
    ∀ ch : Char, ch ≠ '.' → g[i]? = some ch → g[j]? = some ch → False

theorem consistentG_set {g : List Char} {idx v : Nat}
    (hg : ConsistentG g) (hok : PlacementOK g idx v) :
    ConsistentG (g.set idx (digitChar v)) := by
  intro i j hi hj hij hsu ch hch hgi hgj
  by_cases hi' : i = idx
  · subst hi'
    by_cases hlen : i < g.length
    · rw [List.getElem?_set_self hlen] at hgi
      injection hgi with hgi
      rw [List.getElem?_set_ne hij] at hgj
      exact hij (hok j hj hsu (hgi ▸ hgj)).symm
    · rw [List.set_eq_of_length_le (by omega)] at hgi hgj
      exact hg i j hi hj hij hsu ch hch hgi hgj
  · rw [List.getElem?_set_ne (Ne.symm hi')] at hgi
    by_cases hj' : j = idx
    · subst hj'
      by_cases hlen : j < g.length
      · rw [List.getElem?_set_self hlen] at hgj
        injection hgj with hgj
        exact hi' (hok i hi (sameUnit_symm hsu) (hgj ▸ hgi))
      · rw [List.set_eq_of_length_le (by omega)] at hgj
        exact hg i j hi hj hij hsu ch hch hgi hgj
    · rw [List.getElem?_set_ne (Ne.symm hj')] at hgj
      exact hg i j hi hj hij hsu ch hch hgi hgj

theorem consistentG_set_dot {g : List Char} {idx : Nat} (hg : ConsistentG g) :
    ConsistentG (g.set idx '.') := by
  intro i j hi hj hij hsu ch hch hgi hgj
  by_cases hi' : i = idx
  · subst hi'
    by_cases hlen : i < g.length
    · rw [List.getElem?_set_self hlen] at hgi
      injection hgi with hgi
      exact hch hgi.symm
    · rw [List.set_eq_of_length_le (by omega)] at hgi hgj
      exact hg i j hi hj hij hsu ch hch hgi hgj
  · rw [List.getElem?_set_ne (Ne.symm hi')] at hgi
    by_cases hj' : j = idx
    · subst hj'
      by_cases hlen : j < g.length
      · rw [List.getElem?_set_self hlen] at hgj
        injection hgj with hgj
        exact hch hgj.symm
      · rw [List.set_eq_of_length_le (by omega)] at hgj
        exact hg i j hi hj hij hsu ch hch hgi hgj
    · rw [List.getElem?_set_ne (Ne.symm hj')] at hgj
      exact hg i j hi hj hij hsu ch hch hgi hgj

theorem findEmptyIdx_eq_none_iff {g : List Char} : findEmptyIdx g = none ↔ '.' ∉ g := by
  induction g with
  | nil => simp [findEmptyIdx]
  | cons c t ih =>
    by_cases hc : c = '.'
    · subst hc; simp [findEmptyIdx]
    · simp only [findEmptyIdx, if_neg hc, Option.map_eq_none', List.mem_cons]
      rw [ih]
      constructor
      · intro h hmem
        rcases hmem with h' | h'
        · exact hc h'.symm
        · exact h h'
      · intro h hmem
        exact h (Or.inr hmem)

theorem findEmptyIdx_spec {g : List Char} {i : Nat} (h : findEmptyIdx g = some i) :
    g[i]? = some '.' ∧ ∀ j, j < i → g[j]? ≠ some '.' := by
  induction g generalizing i with
  | nil => cases h
  | cons c t ih =>
    by_cases hc : c = '.'
    · subst hc
      simp only [findEmptyIdx, if_pos rfl] at h
      injection h with h
      subst h
      exact ⟨by simp, by omega⟩
    · simp only [findEmptyIdx, if_neg hc] at h
      cases ht : findEmptyIdx t with
      | none => rw [ht] at h; cases h
      | some i' =>
        rw [ht] at h
        simp only [Option.map_some'] at h
        injection h with h
        subst h
        obtain ⟨h1, h2⟩ := ih ht
        refine ⟨by simpa using h1, ?_⟩
        intro j hj
        match j with
        | 0 => simpa using hc
        | j' + 1 =>
          simp only [List.getElem?_cons_succ]
          exact h2 j' (by omega)

theorem getNextEmptyCell_eq_none_iff {g : List Char} :
    getNextEmptyCell g = none ↔ '.' ∉ g := by
  unfold getNextEmptyCell
  cases h : findEmptyIdx g with
  | none => simpa using findEmptyIdx_eq_none_iff.mp h
  | some i =>
    simp only [reduceCtorEq, false_iff]
    intro hmem
    have := findEmptyIdx_eq_none_iff.mpr hmem
    rw [h] at this
    cases this

theorem getNextEmptyCell_eq_some {g : List Char} {r : Char} {c : Int} {idx : Nat}
    {poss : List Nat} (h : getNextEmptyCell g = some (r, c, idx, poss)) :
    g[idx]? = some '.' ∧ (r, c) = toLetterNumberCoordinate idx ∧
      poss = ((List.range 9).map (· + 1)).filter (fun v => checkPlacement g r c v) ∧
      (∀ j, j < idx → g[j]? ≠ some '.') := by
  unfold getNextEmptyCell at h
  cases hf : findEmptyIdx g with
  | none => rw [hf] at h; cases h
  | some i =>
    rw [hf] at h
    simp only [Option.some.injEq, Prod.mk.injEq] at h
    obtain ⟨hr, hc, hidx, hposs⟩ := h
    subst hidx
    obtain ⟨h1, h2⟩ := findEmptyIdx_spec hf
    refine ⟨h1, ?_, ?_, h2⟩
    · rw [← hr, ← hc]
    · rw [← hposs, ← hr, ← hc]

theorem mem_possible_iff {g : List Char} {r : Char} {c : Int} {v : Nat} :
    v ∈ ((List.range 9).map (· + 1)).filter (fun v => checkPlacement g r c v) ↔
      1 ≤ v ∧ v ≤ 9 ∧ checkPlacement g r c v = true := by
  simp only [List.mem_filter, List.mem_map, List.mem_range]
  constructor
  · rintro ⟨⟨a, ha9, hav⟩, hchk⟩
    exact ⟨by omega, by omega, hchk⟩
  · rintro ⟨h1, h9, hchk⟩
    exact ⟨⟨v - 1, by omega, by omega⟩, hchk⟩

theorem tryValues_nil (fuel : Nat) (r : Char) (c : Int) (idx : Nat) (g : List Char) :
    tryValues fuel r c idx g [] = g := rfl

theorem tryValues_cons (fuel : Nat) (r : Char) (c : Int) (idx : Nat) (g : List Char)
    (v : Nat) (vs : List Nat) :
    tryValues fuel r c idx g (v :: vs) =
      tryValues fuel r c idx
        (if checkPlacement g r c v = true then solveRec fuel (g.set idx (digitChar v))
         else g) vs := rfl

theorem foldl_eq_tryValues (fuel : Nat) (r : Char) (c : Int) (idx : Nat)
    (g : List Char) (vs : List Nat) :
    vs.foldl
      (fun g value =>
        if checkPlacement g r c value = true then
          solveRec fuel (g.set idx (digitChar value))
        else g) g = tryValues fuel r c idx g vs := rfl

theorem solveRec_succ (fuel : Nat) (g : List Char) :
    solveRec (fuel + 1) g =
      match getNextEmptyCell g with
      | none => g
      | some (row, col, index, possible) =>
        let afterTries :=
          if possible.length = 1 then
            solveRec fuel (g.set index (digitChar (possible.headD 0)))
          else
            tryValues fuel row col index g possible
        match getNextEmptyCell afterTries with
        | some _ => afterTries.set index '.'
        | none => afterTries := rfl

theorem getNextEmptyCell_isSome_mem {g : List Char} {p : Char × Int × Nat × List Nat}
    (h : getNextEmptyCell g = some p) : '.' ∈ g := by
  by_contra hmem
  rw [getNextEmptyCell_eq_none_iff.mpr hmem] at h
  cases h

theorem solveRec_full (fuel : Nat) {g : List Char} (h : '.' ∉ g) : solveRec fuel g = g := by
  cases fuel with
  | zero => rfl
  | succ f => rw [solveRec_succ, getNextEmptyCell_eq_none_iff.mpr h]

theorem not_dot_mem_set {g : List Char} {idx v : Nat} (h : '.' ∉ g) :
    '.' ∉ g.set idx (digitChar v) := by
  intro hmem
  rcases List.mem_or_eq_of_mem_set hmem with h' | h'
  · exact h h'
  · exact digitChar_ne_dot v h'.symm

/-- Basic state facts about a `solveRec` call at a given fuel: the array keeps
its length, cells that were not empty are untouched, and a call whose final
array still has an empty cell (the error path) has restored the array to its
state at the call. -/
def SolveRecBasic (fuel : Nat) : Prop :=
  ∀ g : List Char,
    (solveRec fuel g).length = g.length ∧
    (∀ j : Nat, g[j]? ≠ some '.' → (solveRec fuel g)[j]? = g[j]?) ∧
    ('.' ∈ solveRec fuel g → solveRec fuel g = g)

/-- The corresponding facts about the candidate loop: outside the loop's own
cell the array is only changed by sub-solves that complete the grid. -/
def TryValuesBasic (fuel : Nat) : Prop :=
  ∀ (r : Char) (c : Int) (idx : Nat) (h : List Char) (vs : List Nat),
    (tryValues fuel r c idx h vs).length = h.length ∧
    (∀ j : Nat, j ≠ idx → h[j]? ≠ some '.' → (tryValues fuel r c idx h vs)[j]? = h[j]?) ∧
    ('.' ∉ h → '.' ∉ tryValues fuel r c idx h vs) ∧
    ('.' ∈ tryValues fuel r c idx h vs →
      ∀ j : Nat, j ≠ idx → (tryValues fuel r c idx h vs)[j]? = h[j]?)

theorem tryValuesBasic_of (fuel : Nat) (HS : SolveRecBasic fuel) : TryValuesBasic fuel := by
  intro r c idx h vs
  induction vs generalizing h with
  | nil =>
    exact ⟨rfl, fun j _ _ => rfl, fun hh => hh, fun _ j _ => rfl⟩
  | cons v vs ih =>
    rw [tryValues_cons]
    set h2 := if checkPlacement h r c v = true then solveRec fuel (h.set idx (digitChar v))
      else h with hh2
    obtain ⟨ih1, ih2, ih3, ih4⟩ := ih h2
    have hlen : h2.length = h.length := by
      rw [hh2]; split
      · rw [(HS _).1, List.length_set]
      · rfl
    have hframe : ∀ j : Nat, j ≠ idx → h[j]? ≠ some '.' → h2[j]? = h[j]? := by
      intro j hj hdot
      rw [hh2]; split
      · rw [(HS _).2.1 j (by rw [List.getElem?_set_ne (Ne.symm hj)]; exact hdot),
          List.getElem?_set_ne (Ne.symm hj)]
      · rfl
    have hfull : '.' ∉ h → '.' ∉ h2 := by
      intro hnh
      rw [hh2]; split
      · intro hmem
        have hrestore := (HS _).2.2 hmem
        rw [hrestore] at hmem
        exact not_dot_mem_set hnh hmem
      · exact hnh
    have hdich : '.' ∈ h2 → ∀ j : Nat, j ≠ idx → h2[j]? = h[j]? := by
      rw [hh2]; split
      · intro hmem j hj
        rw [(HS _).2.2 hmem, List.getElem?_set_ne (Ne.symm hj)]
      · intro _ j _; rfl
    refine ⟨ih1.trans hlen, ?_, ?_, ?_⟩
    · intro j hj hdot
      rw [ih2 j hj (by rw [hframe j hj hdot]; exact hdot), hframe j hj hdot]
    · intro hnh
      exact ih3 (hfull hnh)
    · intro hmem j hj
      have hmem2 : '.' ∈ h2 := by
        by_contra hno
        exact ih3 hno hmem
      rw [ih4 hmem j hj, hdich hmem2 j hj]

theorem solveRecBasic : ∀ fuel : Nat, SolveRecBasic fuel := by
  intro fuel
  induction fuel with
  | zero => exact fun g => ⟨rfl, fun j _ => rfl, fun _ => rfl⟩
  | succ fuel ih =>
    have HT := tryValuesBasic_of fuel ih
    intro g
    cases hne : getNextEmptyCell g with
    | none =>
      rw [solveRec_succ, hne]
      exact ⟨rfl, fun j _ => rfl, fun _ => rfl⟩
    | some quad =>
      obtain ⟨r, c, idx, poss⟩ := quad
      obtain ⟨hgdot, hrc, hposs, -⟩ := getNextEmptyCell_eq_some hne
      have hidxlen : idx < g.length := by
        rcases List.getElem?_eq_some_iff.mp hgdot with ⟨hl, -⟩
        exact hl
      have hres : solveRec (fuel + 1) g =
          (let afterTries :=
            if poss.length = 1 then
              solveRec fuel (g.set idx (digitChar (poss.headD 0)))
            else
              tryValues fuel r c idx g poss
          match getNextEmptyCell afterTries with
          | some _ => afterTries.set idx '.'
          | none => afterTries) := by
        rw [solveRec_succ, hne]
      set after := if poss.length = 1 then
          solveRec fuel (g.set idx (digitChar (poss.headD 0)))
        else tryValues fuel r c idx g poss with hafter
      have ha_len : after.length = g.length := by
        rw [hafter]; split
        · rw [(ih _).1, List.length_set]
        · exact (HT r c idx g poss).1
      have ha_frame : ∀ j : Nat, j ≠ idx → g[j]? ≠ some '.' → after[j]? = g[j]? := by
        intro j hj hdot
        rw [hafter]; split
        · rw [(ih _).2.1 j (by rw [List.getElem?_set_ne (Ne.symm hj)]; exact hdot),
            List.getElem?_set_ne (Ne.symm hj)]
        · exact (HT r c idx g poss).2.1 j hj hdot
      have ha_dich : '.' ∈ after → ∀ j : Nat, j ≠ idx → after[j]? = g[j]? := by
        rw [hafter]; split
        · intro hmem j hj
          rw [(ih _).2.2 hmem, List.getElem?_set_ne (Ne.symm hj)]
        · exact (HT r c idx g poss).2.2.2
      rw [hres]
      cases hne2 : getNextEmptyCell after with
      | some p =>
        simp only [hne2]
        have hmem2 : '.' ∈ after := getNextEmptyCell_isSome_mem hne2
        refine ⟨by rw [List.length_set, ha_len], ?_, ?_⟩
        · intro j hdot
          have hj : j ≠ idx := by
            intro heq
            rw [heq] at hdot
            exact hdot hgdot
          rw [List.getElem?_set_ne (Ne.symm hj), ha_frame j hj hdot]
        · intro _
          apply List.ext_getElem?
          intro j
          by_cases hj : j = idx
          · subst hj
            rw [List.getElem?_set_self (by rw [ha_len]; exact hidxlen), hgdot]
          · rw [List.getElem?_set_ne (Ne.symm hj), ha_dich hmem2 j hj]
      | none =>
        simp only [hne2]
        have hnotmem : '.' ∉ after := getNextEmptyCell_eq_none_iff.mp hne2
        refine ⟨ha_len, ?_, ?_⟩
        · intro j hdot
          have hj : j ≠ idx := by
            intro heq
            rw [heq] at hdot
            exact hdot hgdot
          exact ha_frame j hj hdot
        · intro hmem
          exact absurd hmem hnotmem

/-- Every cell is an empty marker or a character of the validation class. -/
def CharsOK (g : List Char) : Prop := ∀ ch ∈ g, isPuzzleChar ch = true

theorem isPuzzleChar_digitChar : ∀ v : Nat, v ≤ 9 → isPuzzleChar (digitChar v) = true := by
  decide

theorem charsOK_set {g : List Char} {idx v : Nat} (hg : CharsOK g) (hv : v ≤ 9) :
    CharsOK (g.set idx (digitChar v)) := by
  intro ch hmem
  rcases List.mem_or_eq_of_mem_set hmem with h' | h'
  · exact hg ch h'
  · rw [h']; exact isPuzzleChar_digitChar v hv

theorem charsOK_set_dot {g : List Char} {idx : Nat} (hg : CharsOK g) :
    CharsOK (g.set idx '.') := by
  intro ch hmem
  rcases List.mem_or_eq_of_mem_set hmem with h' | h'
  · exact hg ch h'
  · rw [h']; rfl

/-- Soundness of a `solveRec` call: the character class and the no-duplicate
invariant of the grid are preserved. -/
def SolveRecSound (fuel : Nat) : Prop :=
  ∀ g : List Char,
    (CharsOK g → CharsOK (solveRec fuel g)) ∧
    (g.length = 81 → ConsistentG g → ConsistentG (solveRec fuel g))

/-- Soundness of the candidate loop. -/
def TryValuesSound (fuel : Nat) : Prop :=
  ∀ (r : Char) (c : Int) (idx : Nat) (h : List Char) (vs : List Nat),
    (∀ v ∈ vs, 1 ≤ v ∧ v ≤ 9) →
    (CharsOK h → CharsOK (tryValues fuel r c idx h vs)) ∧
    (idx < 81 → (r, c) = toLetterNumberCoordinate idx →
      h.length = 81 → ConsistentG h → ConsistentG (tryValues fuel r c idx h vs))

theorem tryValuesSound_of (fuel : Nat) (HS : SolveRecSound fuel) : TryValuesSound fuel := by
  intro r c idx h vs
  induction vs generalizing h with
  | nil => exact fun _ => ⟨fun hh => hh, fun _ _ _ hh => hh⟩
  | cons v vs ih =>
    intro hvs
    rw [tryValues_cons]
    set h2 := if checkPlacement h r c v = true then solveRec fuel (h.set idx (digitChar v))
      else h with hh2
    obtain ⟨ih1, ih2⟩ := ih h2 (fun w hw => hvs w (List.mem_cons_of_mem v hw))
    have hv9 := hvs v (List.mem_cons_self v vs)
    have hchars : CharsOK h → CharsOK h2 := by
      intro hc
      rw [hh2]; split
      · exact (HS _).1 (charsOK_set hc hv9.2)
      · exact hc
    have hlen : h.length = 81 → h2.length = 81 := by
      intro hl
      rw [hh2]; split
      · rw [(solveRecBasic fuel _).1, List.length_set]; exact hl
      · exact hl
    have hcons : idx < 81 → (r, c) = toLetterNumberCoordinate idx →
        h.length = 81 → ConsistentG h → ConsistentG h2 := by
      intro hidx hrc hl hc
      rw [hh2]; split
      · rename_i hchk
        exact (HS _).2 (by rw [List.length_set]; exact hl)
          (consistentG_set hc (placementOK_of_check hidx hrc hchk))
      · exact hc
    constructor
    · intro hc
      exact ih1 (hchars hc)
    · intro hidx hrc hl hc
      exact ih2 hidx hrc (hlen hl) (hcons hidx hrc hl hc)

theorem solveRecSound : ∀ fuel : Nat, SolveRecSound fuel := by
  intro fuel
  induction fuel with
  | zero => exact fun g => ⟨fun hc => hc, fun _ hc => hc⟩
  | succ fuel ih =>
    have HT := tryValuesSound_of fuel ih
    intro g
    cases hne : getNextEmptyCell g with
    | none =>
      rw [solveRec_succ, hne]
      exact ⟨fun hc => hc, fun _ hc => hc⟩
    | some quad =>
      obtain ⟨r, c, idx, poss⟩ := quad
      obtain ⟨hgdot, hrc, hposs, -⟩ := getNextEmptyCell_eq_some hne
      have hidxlen : idx < g.length := by
        rcases List.getElem?_eq_some_iff.mp hgdot with ⟨hl, -⟩
        exact hl
      have hres : solveRec (fuel + 1) g =
          (let afterTries :=
            if poss.length = 1 then
              solveRec fuel (g.set idx (digitChar (poss.headD 0)))
            else
              tryValues fuel r c idx g poss
          match getNextEmptyCell afterTries with
          | some _ => afterTries.set idx '.'
          | none => afterTries) := by
        rw [solveRec_succ, hne]
      set after := if poss.length = 1 then
          solveRec fuel (g.set idx (digitChar (poss.headD 0)))
        else tryValues fuel r c idx g poss with hafter
      have hvsposs : ∀ v ∈ poss, 1 ≤ v ∧ v ≤ 9 := by
        intro v hv
        rw [hposs] at hv
        obtain ⟨h1, h9, -⟩ := mem_possible_iff.mp hv
        exact ⟨h1, h9⟩
      constructor
      · intro hc
        have hafter_chars : CharsOK after := by
          rw [hafter]; split
          · rename_i hlen1
            obtain ⟨v, hv⟩ := List.length_eq_one.mp hlen1
            have hv9 : poss.headD 0 ≤ 9 := by
              have := hvsposs v (by rw [hv]; exact List.mem_cons_self v [])
              rw [hv]
              simpa using this.2
            exact (ih _).1 (charsOK_set hc hv9)
          · exact (HT r c idx g poss hvsposs).1 hc
        rw [hres]
        cases hne2 : getNextEmptyCell after with
        | some p => simp only [hne2]; exact charsOK_set_dot hafter_chars
        | none => simp only [hne2]; exact hafter_chars
      · intro hlen81 hc
        have hidx81 : idx < 81 := by omega
        have hafter_cons : ConsistentG after := by
          rw [hafter]; split
          · rename_i hlen1
            obtain ⟨v, hv⟩ := List.length_eq_one.mp hlen1
            have hvmem : poss.headD 0 ∈ poss := by
              rw [hv]; simp
            have hchkall : ∀ w ∈ poss, checkPlacement g r c w = true := by
              intro w hw
              rw [hposs] at hw
              exact (mem_possible_iff.mp hw).2.2
            exact (ih _).2 (by rw [List.length_set]; exact hlen81)
              (consistentG_set hc (placementOK_of_check hidx81 hrc (hchkall _ hvmem)))
          · exact (HT r c idx g poss hvsposs).2 hidx81 hrc hlen81 hc
        rw [hres]
        cases hne2 : getNextEmptyCell after with
        | some p => simp only [hne2]; exact consistentG_set_dot hafter_cons
        | none => simp only [hne2]; exact hafter_cons

theorem count_dot_set {g : List Char} : ∀ {idx v : Nat}, g[idx]? = some '.' →
    (g.set idx (digitChar v)).count '.' + 1 = g.count '.' := by
  induction g with
  | nil => intro idx v h; cases h
  | cons a t ih =>
    intro idx v h
    match idx with
    | 0 =>
      simp only [List.getElem?_cons_zero] at h
      injection h with h
      subst h
      simp only [List.set_cons_zero, List.count_cons]
      have hne : (digitChar v == '.') = false := by
        simp [digitChar_ne_dot v]
      rw [hne]
      simp
    | i + 1 =>
      simp only [List.getElem?_cons_succ] at h
      simp only [List.set_cons_succ, List.count_cons]
      have := ih (v := v) h
      split <;> omega

/-- `g` agrees with `G` at every filled cell. -/
def ExtendsTo (g G : List Char) : Prop :=
  ∀ j, j < 81 → g[j]? ≠ some '.' → g[j]? = G[j]?

/-- A complete, conflict-free 81-cell grid of digits 1-9. -/
def FullGoodGrid (G : List Char) : Prop :=
  G.length = 81 ∧ ConsistentG G ∧
    ∀ j, j < 81 → ∃ v, 1 ≤ v ∧ v ≤ 9 ∧ G[j]? = some (digitChar v)

theorem check_of_extends {g G : List Char} {r : Char} {c : Int} {idx vstar : Nat}
    (hG : FullGoodGrid G) (hidx : idx < 81) (hrc : (r, c) = toLetterNumberCoordinate idx)
    (hoff : ∀ j, j < 81 → j ≠ idx → g[j]? ≠ some '.' → g[j]? = G[j]?)
    (hGv : G[idx]? = some (digitChar vstar)) :
    checkPlacement g r c vstar = true := by
  apply check_of_placementOK hidx hrc
  intro j hj hsu hjP
  by_contra hji
  have hdot : g[j]? ≠ some '.' := by
    rw [hjP]
    intro hc
    injection hc with hc
    exact digitChar_ne_dot vstar hc
  have hGj : G[j]? = some (digitChar vstar) := (hoff j hj hji hdot) ▸ hjP
  exact hG.2.1 idx j hidx hj (fun he => hji he.symm) hsu (digitChar vstar)
    (digitChar_ne_dot vstar) hGv hGj

theorem extendsTo_set {g0 G : List Char} {idx vstar : Nat}
    (hlen : idx < g0.length) (hext : ExtendsTo g0 G)
    (hGv : G[idx]? = some (digitChar vstar)) :
    ExtendsTo (g0.set idx (digitChar vstar)) G := by
  intro j hj hdot
  by_cases hji : j = idx
  · subst hji
    rw [List.getElem?_set_self hlen, hGv]
  · rw [List.getElem?_set_ne (Ne.symm hji)] at hdot ⊢
    exact hext j hj hdot

/-- Completeness of `solveRec` relative to a full conflict-free grid `G`: a
grid that agrees with `G` at all filled cells is fully solved when enough fuel
is available. -/
def SolveRecComplete (G : List Char) (fuel : Nat) : Prop :=
  ∀ g : List Char, g.length = 81 → ExtendsTo g G → g.count '.' < fuel →
    '.' ∉ solveRec fuel g

/-- Completeness of the candidate loop. -/
def TryValuesComplete (G : List Char) (fuel : Nat) : Prop :=
  ∀ (r : Char) (c : Int) (idx : Nat) (g0 : List Char) (vstar : Nat)
    (vs : List Nat) (h : List Char),
    idx < 81 → (r, c) = toLetterNumberCoordinate idx →
    g0.length = 81 → g0[idx]? = some '.' → ExtendsTo g0 G → g0.count '.' ≤ fuel →
    G[idx]? = some (digitChar vstar) →
    vstar ∈ vs →
    (h = g0 ∨ (∃ ch, h = g0.set idx ch ∧ ch ≠ '.') ∨ '.' ∉ h) →
    '.' ∉ tryValues fuel r c idx h vs

theorem tryValuesComplete_of {G : List Char} (hG : FullGoodGrid G) (fuel : Nat)
    (HS : SolveRecComplete G fuel) : TryValuesComplete G fuel := by
  have TB := tryValuesBasic_of fuel (solveRecBasic fuel)
  intro r c idx g0 vstar vs h hidx hrc hlen hdot hext hcount hGv
  have hidxlen : idx < g0.length := by
    rcases List.getElem?_eq_some_iff.mp hdot with ⟨hl, -⟩
    exact hl
  have hcpos : 0 < g0.count '.' :=
    List.count_pos_iff.mpr (List.mem_iff_getElem?.mpr ⟨idx, hdot⟩)
  induction vs generalizing h with
  | nil => intro hmem _; cases hmem
  | cons v vs ih =>
    intro hmem hshape
    rcases hshape with hh | ⟨ch, hh, hch⟩ | hfull
    · -- h = g0
      subst hh
      rw [tryValues_cons]
      by_cases hchk : checkPlacement h r c v = true
      · rw [if_pos hchk]
        have hset : (h.set idx (digitChar v)).count '.' + 1 = h.count '.' :=
          count_dot_set hdot
        by_cases hvs : v = vstar
        · subst hvs
          have hfull3 : '.' ∉ solveRec fuel (h.set idx (digitChar v)) := by
            apply HS _ (by rw [List.length_set]; exact hlen)
              (extendsTo_set hidxlen hext hGv) (by omega)
          exact (TB r c idx _ vs).2.2.1 hfull3
        · by_cases hfull3 : '.' ∈ solveRec fuel (h.set idx (digitChar v))
          · have hrestore := (solveRecBasic fuel _).2.2 hfull3
            have hmem2 : vstar ∈ vs := by
              rcases List.mem_cons.mp hmem with he | he
              · exact absurd he.symm hvs
              · exact he
            apply ih _ hmem2
            right; left
            exact ⟨digitChar v, by rw [hrestore], digitChar_ne_dot v⟩
          · exact (TB r c idx _ vs).2.2.1 hfull3
      · rw [if_neg hchk]
        have hchkstar : checkPlacement h r c vstar = true := by
          apply check_of_extends hG hidx hrc _ hGv
          intro j hj hji hjdot
          exact hext j hj hjdot
        have hvne : v ≠ vstar := fun he => hchk (he ▸ hchkstar)
        have hmem2 : vstar ∈ vs := by
          rcases List.mem_cons.mp hmem with he | he
          · exact absurd he.symm hvne
          · exact he
        apply ih _ hmem2
        left; rfl
    · -- h = g0 with the loop cell overwritten
      subst hh
      rw [tryValues_cons]
      have hoff : ∀ j, j < 81 → j ≠ idx → (g0.set idx ch)[j]? ≠ some '.' →
          (g0.set idx ch)[j]? = G[j]? := by
        intro j hj hji hjdot
        rw [List.getElem?_set_ne (Ne.symm hji)] at hjdot ⊢
        exact hext j hj hjdot
      by_cases hchk : checkPlacement (g0.set idx ch) r c v = true
      · rw [if_pos hchk]
        have hcollapse : (g0.set idx ch).set idx (digitChar v) = g0.set idx (digitChar v) :=
          List.set_set ch (digitChar v) g0 idx
        have hset : (g0.set idx (digitChar v)).count '.' + 1 = g0.count '.' :=
          count_dot_set hdot
        by_cases hvs : v = vstar
        · subst hvs
          have hfull3 : '.' ∉ solveRec fuel ((g0.set idx ch).set idx (digitChar v)) := by
            rw [hcollapse]
            apply HS _ (by rw [List.length_set]; exact hlen)
              (extendsTo_set hidxlen hext hGv) (by omega)
          exact (TB r c idx _ vs).2.2.1 hfull3
        · by_cases hfull3 : '.' ∈ solveRec fuel ((g0.set idx ch).set idx (digitChar v))
          · have hrestore := (solveRecBasic fuel _).2.2 hfull3
            have hmem2 : vstar ∈ vs := by
              rcases List.mem_cons.mp hmem with he | he
              · exact absurd he.symm hvs
              · exact he
            apply ih _ hmem2
            right; left
            exact ⟨digitChar v, by rw [hrestore, hcollapse], digitChar_ne_dot v⟩
          · exact (TB r c idx _ vs).2.2.1 hfull3
      · rw [if_neg hchk]
        have hchkstar : checkPlacement (g0.set idx ch) r c vstar = true :=
          check_of_extends hG hidx hrc hoff hGv
        have hvne : v ≠ vstar := fun he => hchk (he ▸ hchkstar)
        have hmem2 : vstar ∈ vs := by
          rcases List.mem_cons.mp hmem with he | he
          · exact absurd he.symm hvne
          · exact he
        apply ih _ hmem2
        right; left
        exact ⟨ch, rfl, hch⟩
    · -- h is already full
      exact (TB r c idx h (v :: vs)).2.2.1 hfull

theorem solveRecComplete {G : List Char} (hG : FullGoodGrid G) :
    ∀ fuel : Nat, SolveRecComplete G fuel := by
  intro fuel
  induction fuel with
  | zero => intro g hlen hext hcount; omega
  | succ fuel ih =>
    have HT := tryValuesComplete_of hG fuel ih
    intro g hlen hext hcount
    cases hne : getNextEmptyCell g with
    | none =>
      rw [solveRec_succ, hne]
      exact getNextEmptyCell_eq_none_iff.mp hne
    | some quad =>
      obtain ⟨r, c, idx, poss⟩ := quad
      obtain ⟨hgdot, hrc, hposs, -⟩ := getNextEmptyCell_eq_some hne
      have hidxlen : idx < g.length := by
        rcases List.getElem?_eq_some_iff.mp hgdot with ⟨hl, -⟩
        exact hl
      have hidx81 : idx < 81 := by omega
      obtain ⟨vstar, hv1, hv9, hGv⟩ := hG.2.2 idx hidx81
      have hchkstar : checkPlacement g r c vstar = true := by
        apply check_of_extends hG hidx81 hrc _ hGv
        intro j hj hji hjdot
        exact hext j hj hjdot
      have hvposs : vstar ∈ poss := by
        rw [hposs]
        exact mem_possible_iff.mpr ⟨hv1, hv9, hchkstar⟩
      have hcpos : 0 < g.count '.' :=
        List.count_pos_iff.mpr (List.mem_iff_getElem?.mpr ⟨idx, hgdot⟩)
      have hres : solveRec (fuel + 1) g =
          (let afterTries :=
            if poss.length = 1 then
              solveRec fuel (g.set idx (digitChar (poss.headD 0)))
            else
              tryValues fuel r c idx g poss
          match getNextEmptyCell afterTries with
          | some _ => afterTries.set idx '.'
          | none => afterTries) := by
        rw [solveRec_succ, hne]
      set after := if poss.length = 1 then
          solveRec fuel (g.set idx (digitChar (poss.headD 0)))
        else tryValues fuel r c idx g poss with hafter
      have hafter_full : '.' ∉ after := by
        rw [hafter]; split
        · rename_i hlen1
          obtain ⟨v, hv⟩ := List.length_eq_one.mp hlen1
          have hvv : poss.headD 0 = vstar := by
            rw [hv] at hvposs ⊢
            rcases List.mem_cons.mp hvposs with he | he
            · rw [List.headD_cons, he]
            · cases he
          rw [hvv]
          have hset : (g.set idx (digitChar vstar)).count '.' + 1 = g.count '.' :=
            count_dot_set hgdot
          exact ih _ (by rw [List.length_set]; exact hlen)
            (extendsTo_set hidxlen hext hGv) (by omega)
        · exact HT r c idx g vstar poss g hidx81 hrc hlen hgdot hext (by omega) hGv
            hvposs (Or.inl rfl)
      rw [hres]
      have hne2 : getNextEmptyCell after = none := getNextEmptyCell_eq_none_iff.mpr hafter_full
      simp only [hne2]
      exact hafter_full

theorem isPuzzleChar_elim {c : Char} (h : isPuzzleChar c = true) (hd : c ≠ '.') :
    48 ≤ c.toNat ∧ c.toNat ≤ 57 := by
  simp only [isPuzzleChar, decide_eq_true_eq] at h
  rcases h with h | h
  · exact absurd h hd
  · exact h

theorem digitChar_charToValue {c : Char} (h : isPuzzleChar c = true) (hd : c ≠ '.') :
    digitChar (charToValue c) = c := by
  obtain ⟨h1, h2⟩ := isPuzzleChar_elim h hd
  unfold digitChar charToValue
  rw [show 48 + (c.toNat - 48) = c.toNat by omega]
  exact Char.ofNat_toNat c

theorem charToValue_le {c : Char} (h : isPuzzleChar c = true) (hd : c ≠ '.') :
    charToValue c ≤ 9 := by
  obtain ⟨h1, h2⟩ := isPuzzleChar_elim h hd
  unfold charToValue
  omega

theorem validate_eq_ok {s : List Char} (h : (validate s).ok = true) :
    s.length = 81 ∧ ∀ ch ∈ s, isPuzzleChar ch = true := by
  unfold validate at h
  split_ifs at h with h1 h2 h3
  exact ⟨by omega, fun ch hch => List.all_eq_true.mp h3 ch hch⟩

theorem validate_of_facts {s : List Char} (hlen : s.length = 81)
    (hch : ∀ ch ∈ s, isPuzzleChar ch = true) : validate s = ⟨true, none⟩ := by
  unfold validate
  rw [if_neg (by simp [List.isEmpty_iff]; intro he; rw [he] at hlen; cases hlen),
    if_neg (by omega), if_neg (by rw [not_not]; exact List.all_eq_true.mpr hch)]

/-- The three per-cell checks run by `checkSolve` at cell `i`. -/
def cellChecksOK (s : List Char) (i : Nat) (c : Char) : Prop :=
  checkRowPlacement s (toLetterNumberCoordinate i).1 (toLetterNumberCoordinate i).2
      (charToValue c) = true ∧
  checkColPlacement s (toLetterNumberCoordinate i).1 (toLetterNumberCoordinate i).2
      (charToValue c) = true ∧
  checkRegionPlacement s (toLetterNumberCoordinate i).1 (toLetterNumberCoordinate i).2
      (charToValue c) = true

theorem checkSolveLoop_success {s : List Char}
    (hcells : ∀ i : Nat, ∀ c : Char, s[i]? = some c → c ≠ '.' ∧ cellChecksOK s i c) :
    ∀ n i, checkSolveLoop s n i = { solved := true, error := none, conflict := none } := by
  intro n
  induction n with
  | zero => intro i; rfl
  | succ n ihn =>
    intro i
    cases hsi : s[i]? with
    | none => simp only [checkSolveLoop, hsi]
    | some c =>
      obtain ⟨hcdot, hr, hc2, hg⟩ := hcells i c hsi
      simp only [checkSolveLoop, hsi, if_neg hcdot, hr, hc2, hg, if_true,
        List.nil_append, List.length_nil, gt_iff_lt, Nat.lt_irrefl, if_false]
      exact ihn (i + 1)

theorem checkSolveLoop_not_solved {s : List Char} {d : Nat} (hd : s[d]? = some '.')
    (hmin : ∀ j, j < d → s[j]? ≠ some '.')
    (hcells : ∀ j, j < d → ∀ c : Char, s[j]? = some c → cellChecksOK s j c) :
    ∀ n i, i ≤ d → d < i + n →
      checkSolveLoop s n i =
        { solved := false, error := some "Puzzle is not solved", conflict := none } := by
  intro n
  induction n with
  | zero => intro i hi hdn; omega
  | succ n ihn =>
    intro i hi hdn
    by_cases hieq : i = d
    · subst hieq
      simp only [checkSolveLoop, hd]
      rw [if_pos trivial]
    · have hilt : i < d := by omega
      have hlen : d < s.length := by
        rcases List.getElem?_eq_some_iff.mp hd with ⟨hl, -⟩
        exact hl
      have hilen : i < s.length := by omega
      have hisome : s[i]? = some s[i] := List.getElem?_eq_getElem hilen
      set c := s[i] with hc
      have hcdot : c ≠ '.' := by
        intro he
        exact hmin i hilt (by rw [hisome, he])
      obtain ⟨hr, hc2, hg⟩ := hcells i hilt c hisome
      simp only [checkSolveLoop, hisome, if_neg hcdot, hr, hc2, hg, if_true,
        List.nil_append, List.length_nil, gt_iff_lt, Nat.lt_irrefl, if_false]
      exact ihn (i + 1) (by omega) (by omega)

theorem cellChecks_of_consistent {s : List Char} (hlen : s.length = 81)
    (hcons : ConsistentG s) {i : Nat} {c : Char} (hi : s[i]? = some c)
    (hpc : isPuzzleChar c = true) (hcdot : c ≠ '.') : cellChecksOK s i c := by
  have hi81 : i < 81 := by
    rcases List.getElem?_eq_some_iff.mp hi with ⟨hl, -⟩
    omega
  have hco := toCoord_roundTrip i hi81
  have hdc : digitChar (charToValue c) = c := digitChar_charToValue hpc hcdot
  refine ⟨?_, ?_, ?_⟩
  · rw [checkRowPlacement_iff hco]
    intro k hk9 hkP
    rw [hdc] at hkP
    by_contra hne
    exact hcons i (9 * (i / 9) + k) hi81 (by omega) (fun he => hne he.symm)
      (by unfold sameUnit; omega) c hcdot hi hkP
  · rw [checkColPlacement_iff hco]
    intro k hk9 hkP
    rw [hdc] at hkP
    by_contra hne
    exact hcons i (i % 9 + k * 9) hi81 (by omega) (fun he => hne he.symm)
      (by unfold sameUnit; omega) c hcdot hi hkP
  · rw [checkRegionPlacement_iff hco]
    intro a b ha3 hb3 hP
    rw [hdc] at hP
    by_contra hne
    exact hcons i (9 * (i / 9 / 3 * 3 + a) + (i % 9 / 3 * 3 + b)) hi81 (by omega)
      (fun he => hne he.symm) (by unfold sameUnit; omega) c hcdot hi hP

theorem checkSolve_success {s : List Char} (hlen : s.length = 81)
    (hchars : CharsOK s) (hnd : '.' ∉ s) (hcons : ConsistentG s) :
    checkSolve s = { solved := true, error := none, conflict := none } := by
  unfold checkSolve
  rw [validate_of_facts hlen hchars]
  simp only [Bool.true_eq_false, if_false]
  apply checkSolveLoop_success
  intro i c hic
  have hmem : c ∈ s := List.mem_iff_getElem?.mpr ⟨i, hic⟩
  have hcdot : c ≠ '.' := fun he => hnd (he ▸ hmem)
  exact ⟨hcdot, cellChecks_of_consistent hlen hcons hic (hchars c hmem) hcdot⟩

theorem consistentG_nil : ConsistentG [] := by
  intro i j hi hj hij hsu ch hch hgi hgj
  simp at hgi

theorem consistentG_snoc {g : List Char} {v : Nat} (hcons : ConsistentG g)
    (hok : PlacementOK g g.length v) : ConsistentG (g ++ [digitChar v]) := by
  intro i j hi hj hij hsu ch hch hgi hgj
  rcases Nat.lt_trichotomy i g.length with hilt | hieq | higt
  · rcases Nat.lt_trichotomy j g.length with hjlt | hjeq | hjgt
    · rw [List.getElem?_append_left hilt] at hgi
      rw [List.getElem?_append_left hjlt] at hgj
      exact hcons i j hi hj hij hsu ch hch hgi hgj
    · subst hjeq
      rw [List.getElem?_concat_length] at hgj
      injection hgj with hgj
      rw [List.getElem?_append_left hilt] at hgi
      have := hok i hi (sameUnit_symm hsu) (hgj ▸ hgi)
      omega
    · rw [List.getElem?_eq_none (by simp; omega)] at hgj
      cases hgj
  · subst hieq
    rw [List.getElem?_concat_length] at hgi
    injection hgi with hgi
    rcases Nat.lt_trichotomy j g.length with hjlt | hjeq | hjgt
    · rw [List.getElem?_append_left hjlt] at hgj
      have := hok j hj hsu (hgi ▸ hgj)
      omega
    · exact hij hjeq.symm
    · rw [List.getElem?_eq_none (by simp; omega)] at hgj
      cases hgj
  · rw [List.getElem?_eq_none (by simp; omega)] at hgi
    cases hgi

theorem genCellLoop_some {rnd : Nat → Nat} {gStr : List Char} {row : Char} {col : Int} :
    ∀ {pfuel k k2 : Nat} {pool : List Nat} {d : Nat} {hide : Bool},
    pool ≠ [] → (∀ v ∈ pool, 1 ≤ v ∧ v ≤ 9) →
    genCellLoop rnd gStr row col pfuel k pool = (some (d, hide), k2) →
    (1 ≤ d ∧ d ≤ 9) ∧ checkPlacement gStr row col d = true := by
  intro pfuel
  induction pfuel with
  | zero => intro k k2 pool d hide hne hb h; cases h
  | succ pfuel ih =>
    intro k k2 pool d hide hne hb h
    have hpos : 0 < pool.length := List.length_pos.mpr hne
    have hidx : rnd k % pool.length < pool.length := Nat.mod_lt _ hpos
    have hdig : pool.getD (rnd k % pool.length) 0 ∈ pool := by
      rw [List.getD_eq_getElem pool 0 hidx]
      exact List.getElem_mem hidx
    simp only [genCellLoop] at h
    split at h
    · rename_i hchk
      simp only [Prod.mk.injEq, Option.some.injEq] at h
      obtain ⟨⟨hd, -⟩, -⟩ := h
      subst hd
      exact ⟨hb _ hdig, hchk⟩
    · rename_i hchk
      split at h
      · exact absurd (congrArg Prod.fst h) (by simp)
      · rename_i hp2
        apply ih _ _ h
        · intro he
          rw [he] at hp2
          exact hp2 rfl
        · intro w hw
          exact hb w (List.mem_of_mem_eraseIdx hw)

theorem genLoop_some {rnd : Nat → Nat} :
    ∀ (fuel : Nat) (k : Nat) (puzzle hidden : List Nat) (cursor : Nat),
    puzzle.length = cursor → cursor ≤ 81 →
    (∀ d ∈ puzzle, 1 ≤ d ∧ d ≤ 9) → ConsistentG (puzzle.map digitChar) →
    ∀ {P H : List Nat}, genLoop rnd fuel k puzzle hidden cursor = some (P, H) →
    P.length = 81 ∧ (∀ d ∈ P, 1 ≤ d ∧ d ≤ 9) ∧ ConsistentG (P.map digitChar) := by
  intro fuel
  induction fuel with
  | zero => intro k puzzle hidden cursor _ _ _ _ P H h; cases h
  | succ fuel ih =>
    intro k puzzle hidden cursor hlen hcur hb hcons P H h
    simp only [genLoop] at h
    split at h
    · rename_i hc81
      cases hcell : genCellLoop rnd (puzzle.map digitChar) (toLetterNumberCoordinate cursor).1
          (toLetterNumberCoordinate cursor).2 9 k [1, 2, 3, 4, 5, 6, 7, 8, 9] with
      | mk res k2 =>
        rw [hcell] at h
        cases res with
        | none =>
          exact ih k2 [] [] 0 rfl (by omega) (by simp) consistentG_nil h
        | some dh =>
          obtain ⟨digit, hide⟩ := dh
          obtain ⟨⟨hd1, hd9⟩, hchk⟩ := genCellLoop_some (by simp) (by decide) hcell
          have hmaplen : (puzzle.map digitChar).length = cursor := by
            rw [List.length_map]; exact hlen
          have hok : PlacementOK (puzzle.map digitChar) cursor digit := by
            apply placementOK_of_check hc81 rfl hchk
          have hsnoc : ConsistentG ((puzzle ++ [digit]).map digitChar) := by
            rw [List.map_append]
            simp only [List.map_cons, List.map_nil]
            have := consistentG_snoc hcons (hmaplen ▸ hok)
            exact this
          apply ih k2 (puzzle ++ [digit])
            (if hide then hidden ++ [cursor] else hidden) (cursor + 1)
            (by rw [List.length_append, hlen]; rfl) (by omega)
            (by intro w hw
                rcases List.mem_append.mp hw with hw | hw
                · exact hb w hw
                · rw [List.mem_singleton.mp hw]; exact ⟨hd1, hd9⟩)
            hsnoc h
    · rename_i hc81
      simp only [Option.some.injEq, Prod.mk.injEq] at h
      obtain ⟨hP, -⟩ := h
      subst hP
      exact ⟨by omega, hb, hcons⟩

theorem mask_foldl_facts (H : List Nat) :
    ∀ base : List Char,
    (H.foldl (fun p i => p.set i '.') base).length = base.length ∧
    ∀ j : Nat, (H.foldl (fun p i => p.set i '.') base)[j]? = base[j]? ∨
      (H.foldl (fun p i => p.set i '.') base)[j]? = some '.' := by
  induction H with
  | nil => exact fun base => ⟨rfl, fun j => Or.inl rfl⟩
  | cons i H ih =>
    intro base
    simp only [List.foldl_cons]
    obtain ⟨ih1, ih2⟩ := ih (base.set i '.')
    refine ⟨by rw [ih1, List.length_set], ?_⟩
    intro j
    rcases ih2 j with h' | h'
    · by_cases hij : i = j
      · subst hij
        by_cases hlt : i < base.length
        · right; rw [h', List.getElem?_set_self hlt]
        · left; rw [h', List.set_eq_of_length_le (by omega)]
      · left; rw [h', List.getElem?_set_ne hij]
    · right; exact h'

theorem generate_some {rnd : Nat → Nat} {fuel : Nat} {s : List Char}
    (h : generate rnd fuel = some s) :
    ∃ G, FullGoodGrid G ∧ s.length = 81 ∧ ExtendsTo s G ∧ CharsOK s := by
  unfold generate at h
  cases hgl : genLoop rnd fuel 0 [] [] 0 with
  | none => rw [hgl] at h; cases h
  | some PH =>
    obtain ⟨P, H⟩ := PH
    rw [hgl] at h
    injection h with h
    obtain ⟨hPlen, hPb, hPcons⟩ :=
      genLoop_some fuel 0 [] [] 0 rfl (by omega) (by simp) consistentG_nil hgl
    refine ⟨P.map digitChar, ⟨by rw [List.length_map]; exact hPlen, hPcons, ?_⟩, ?_, ?_, ?_⟩
    · intro j hj
      have hjP : j < P.length := by omega
      refine ⟨P[j], (hPb _ (List.getElem_mem hjP)).1, (hPb _ (List.getElem_mem hjP)).2, ?_⟩
      rw [List.getElem?_map, List.getElem?_eq_getElem hjP]
      rfl
    · rw [← h]
      rw [(mask_foldl_facts H _).1, List.length_map]
      exact hPlen
    · intro j hj hdot
      rcases (mask_foldl_facts H (P.map digitChar)).2 j with h' | h'
      · rw [h] at h'
        exact h'
      · rw [h] at h'
        exact absurd h' hdot
    · intro ch hmem
      obtain ⟨j, hj⟩ := List.mem_iff_getElem?.mp hmem
      rcases (mask_foldl_facts H (P.map digitChar)).2 j with h' | h'
      · rw [h] at h'
        rw [h'] at hj
        rw [List.getElem?_map] at hj
        cases hPj : P[j]? with
        | none => rw [hPj] at hj; cases hj
        | some d =>
          rw [hPj] at hj
          injection hj with hj
          have hdmem : d ∈ P := List.mem_iff_getElem?.mpr ⟨j, hPj⟩
          rw [← hj]
          exact isPuzzleChar_digitChar d (hPb d hdmem).2
      · rw [h] at h'
        rw [h'] at hj
        injection hj with hj
        rw [← hj]
        rfl

theorem rowLetters_getD : ∀ y, y < 9 → (rowLetters.getD y 'A').toNat = 65 + y := by
  decide

theorem solve_eq_solution {p s : List Char} (h : solve p = SolveResult.solution s) :
    (validate p).ok = true ∧ s = solveRec solveFuel p ∧ '.' ∉ s := by
  unfold solve at h
  by_cases hv : (validate p).ok = false
  · rw [if_pos hv] at h; cases h
  · rw [if_neg hv] at h
    simp only at h
    by_cases hdot : '.' ∈ solveRec solveFuel p
    · rw [if_pos hdot] at h; cases h
    · rw [if_neg hdot] at h
      injection h with h
      refine ⟨?_, h.symm, h ▸ hdot⟩
      revert hv
      cases (validate p).ok <;> simp

theorem solve_of_good {p : List Char} (hok : validate p = { ok := true, error := none })
    (hnd : '.' ∉ solveRec solveFuel p) :
    solve p = SolveResult.solution (solveRec solveFuel p) := by
  unfold solve
  rw [hok]
  simp only [Bool.true_eq_false, if_false]
  rw [if_neg hnd]

/-- The input's filled cells each pass the combined placement check (the
solver's own notion of a conflict-free set of givens). -/
def givensOK (x : List Char) : Bool :=
  (List.range 81).all fun i =>
    match x[i]? with
    | none => true
    | some c =>
      if c = '.' then true
      else
        checkPlacement x (toLetterNumberCoordinate i).1 (toLetterNumberCoordinate i).2
          (charToValue c)

theorem consistentG_of_givensOK {x : List Char} (hch : CharsOK x)
    (hg : givensOK x = true) : ConsistentG x := by
  intro i j hi hj hij hsu ch hcd hgi hgj
  have hall := List.all_eq_true.mp hg i (List.mem_range.mpr hi)
  simp only [hgi, if_neg hcd] at hall
  have hok : PlacementOK x i (charToValue ch) := placementOK_of_check hi rfl hall
  have hmem : ch ∈ x := List.mem_iff_getElem?.mpr ⟨i, hgi⟩
  have hdc := digitChar_charToValue (hch ch hmem) hcd
  exact hij (hok j hj hsu (by rw [hdc]; exact hgj)).symm

/-! ## Concrete grids used by witnesses and counterexamples -/

/-- The reference solved grid from the test suite. -/
def FGrid : List Char :=
  "769235418851496372432178956174569283395842761628713549283657194516924837947381625".toList

/-- An 81-cell grid whose first empty cell (index 8) has no candidate: row A
holds 1-8 and the 9 of column 9 is already taken at B9. -/
def UGrid : List Char := "12345678.........9".toList ++ List.replicate 63 '.'

/-- Two clashing givens followed by blanks. -/
def C5Grid : List Char := '1' :: '1' :: List.replicate 79 '.'

/-- A grid whose only filled cell is a 5 at A1. -/
def C6Grid : List Char := '5' :: List.replicate 80 '.'

/-- An 81-character string of the validator's class that contains a zero. -/
def C8Grid : List Char := List.replicate 80 '.' ++ ['0']

/-- A random stream under which `generate` reconstructs `FGrid` and hides
nothing: even draws pick the digit of `FGrid` at the current cell out of the
untouched pool, odd draws return 0, so the hide coin (value 1) never fires. -/
def wrnd : Nat → Nat := fun k =>
  if k % 2 = 1 then 0 else (FGrid.map charToValue).getD (k / 2) 1 - 1

/-! ## The claims -/

/-- C1, counterexample: `solve` returns an already-full grid unvalidated, so
on the all-ones string it reports a solution whose `checkSolve` is a conflict
report, not `solved: true`. -/
theorem C1_counterexample :
    solve (List.replicate 81 '1') = SolveResult.solution (List.replicate 81 '1') ∧
    (checkSolve (List.replicate 81 '1')).solved = false ∧
    (checkSolve (List.replicate 81 '1')).conflict ≠ none := by
  decide

/-- C1 (amended): for every puzzle string whose filled cells each pass the
combined placement check, a solution returned by `solve` satisfies
`checkSolve` with `solved: true`, no error and no conflict list. -/
theorem C1_amended : ∀ x s : List Char, givensOK x = true →
    solve x = SolveResult.solution s →
    checkSolve s = { solved := true, error := none, conflict := none } := by
  intro x s hg hsol
  obtain ⟨hok, hs, hnd⟩ := solve_eq_solution hsol
  obtain ⟨hxlen, hxch⟩ := validate_eq_ok hok
  have hxcons : ConsistentG x := consistentG_of_givensOK hxch hg
  have hslen : s.length = 81 := by
    rw [hs, (solveRecBasic solveFuel x).1]; exact hxlen
  have hsch : CharsOK s := by
    rw [hs]; exact (solveRecSound solveFuel x).1 hxch
  have hscons : ConsistentG s := by
    rw [hs]; exact (solveRecSound solveFuel x).2 hxlen hxcons
  exact checkSolve_success hslen hsch hnd hscons

/-- C1 witness instance. -/
theorem C1_witness :
    givensOK FGrid = true ∧
    checkSolve FGrid = { solved := true, error := none, conflict := none } :=
  ⟨by decide, C1_amended FGrid FGrid (by decide) (by decide)⟩

/-- C2: every terminating run of `generate` yields a puzzle that `solve`
completes; the `PuzzleUnsolvable` error is impossible on generated puzzles. -/
theorem C2_generate_solvable :
    ∀ (rnd : Nat → Nat) (fuel : Nat) (s : List Char),
    generate rnd fuel = some s →
    ∃ sol, solve s = SolveResult.solution sol ∧
      solve s ≠ SolveResult.error "Puzzle cannot be solved" := by
  intro rnd fuel s h
  obtain ⟨G, hG, hlen, hext, hchars⟩ := generate_some h
  have hval := validate_of_facts hlen hchars
  have hfull : '.' ∉ solveRec solveFuel s :=
    solveRecComplete hG solveFuel s hlen hext
      (by have := List.count_le_length '.' s; unfold solveFuel; omega)
  exact ⟨solveRec solveFuel s, solve_of_good hval hfull, by
    rw [solve_of_good hval hfull]; intro hc; cases hc⟩

set_option maxRecDepth 8000 in
/-- C2 witness instance. -/
theorem C2_witness :
    generate wrnd 82 = some FGrid ∧
    ∃ sol, solve FGrid = SolveResult.solution sol ∧
      solve FGrid ≠ SolveResult.error "Puzzle cannot be solved" :=
  ⟨by decide, C2_generate_solvable wrnd 82 FGrid (by decide)⟩

/-- C3: a recursive `solve` invocation that ends on the error path (its final
array still holds an empty marker) leaves the 81-cell array exactly as it was
at the call. -/
theorem C3_backtrack_restores :
    ∀ (fuel : Nat) (a : List Char), a.length = 81 →
    '.' ∈ solveRec fuel a → solveRec fuel a = a :=
  fun fuel a _ h => (solveRecBasic fuel a).2.2 h

/-- C3 witness instance. -/
theorem C3_witness : '.' ∈ solveRec 82 UGrid ∧ solveRec 82 UGrid = UGrid :=
  ⟨by decide, C3_backtrack_restores 82 UGrid (by decide) (by decide)⟩

/-- C4, counterexample: the empty string has length ≠ 81 but `validate`
reports the empty-input error, not the wrong-length error. -/
theorem C4_counterexample :
    ([] : List Char).length ≠ 81 ∧
    validate [] = { ok := false, error := some "No puzzle string given." } ∧
    validate [] ≠ { ok := false, error := some "Expected puzzle to be 81 characters long" } := by
  decide

/-- C4 (amended): every nonempty string whose length is not 81 fails
validation with the wrong-length error. -/
theorem C4_amended : ∀ s : List Char, s ≠ [] → s.length ≠ 81 →
    validate s = { ok := false, error := some "Expected puzzle to be 81 characters long" } := by
  intro s hne hlen
  unfold validate
  rw [if_neg (by simpa [List.isEmpty_iff] using hne), if_pos hlen]

/-- C4 witness instance. -/
theorem C4_witness :
    (['.'] : List Char) ≠ [] ∧ (['.'] : List Char).length ≠ 81 ∧
    validate ['.'] = { ok := false, error := some "Expected puzzle to be 81 characters long" } :=
  ⟨by decide, by decide, C4_amended ['.'] (by decide) (by decide)⟩

/-- C5, counterexample: with two clashing filled cells before the first empty
marker, `checkSolve` reports the cell conflict (with a conflict list), not
`PuzzleNotSolved` — the emptiness rejection does not precede conflict
checking. -/
theorem C5_counterexample :
    (validate C5Grid).ok = true ∧ '.' ∈ C5Grid ∧
    checkSolve C5Grid =
      { solved := false, error := some (conflictMessage 'A' 1),
        conflict := some ["row", "region"] } ∧
    checkSolve C5Grid ≠
      { solved := false, error := some "Puzzle is not solved", conflict := none } := by
  decide

/-- C5 (amended): on a structurally valid puzzle containing an empty marker,
if every filled cell before the first empty marker passes its row, column and
region checks, `checkSolve` returns `solved: false` with the
`PuzzleNotSolved` error and no conflict list. -/
theorem C5_amended : ∀ (s : List Char) (d : Nat), (validate s).ok = true →
    findEmptyIdx s = some d →
    (∀ j, j < d → ∀ c : Char, s[j]? = some c → cellChecksOK s j c) →
    checkSolve s =
      { solved := false, error := some "Puzzle is not solved", conflict := none } := by
  intro s d hok hd hclean
  obtain ⟨hsd, hmin⟩ := findEmptyIdx_spec hd
  have hdlen : d < s.length := by
    rcases List.getElem?_eq_some_iff.mp hsd with ⟨hl, -⟩
    exact hl
  unfold checkSolve
  rw [validate_of_facts (validate_eq_ok hok).1 (validate_eq_ok hok).2]
  simp only [Bool.true_eq_false, if_false]
  exact checkSolveLoop_not_solved hsd hmin hclean s.length 0 (by omega) (by omega)

/-- C5 witness instance. -/
theorem C5_witness :
    (validate (List.replicate 81 '.')).ok = true ∧
    checkSolve (List.replicate 81 '.') =
      { solved := false, error := some "Puzzle is not solved", conflict := none } :=
  ⟨by decide, C5_amended (List.replicate 81 '.') 0 (by decide) (by decide)
    (by intro j hj c hc; omega)⟩

/-- C6: when the target cell already holds the digit and the digit appears
nowhere else in the row, the row check accepts (the occupant's own occurrence
is excluded before the membership test). -/
theorem C6_no_self_conflict :
    ∀ (g : List Char) (r : Char) (c : Int) (v x y idx : Nat),
    g.length = 81 →
    toBaseZeroCoordinate r c = some (x, y, idx) →
    1 ≤ v → v ≤ 9 →
    g[idx]? = some (digitChar v) →
    (∀ k, k < 9 → 9 * y + k ≠ idx → g[9 * y + k]? ≠ some (digitChar v)) →
    checkRowPlacement g r c v = true := by
  intro g r c v x y idx hlen hco h1 h9 hcell hrow
  rw [checkRowPlacement_iff hco]
  intro k hk9 hkP
  by_contra hne
  exact hrow k hk9 hne hkP

/-- C6 witness instance. -/
theorem C6_witness : checkRowPlacement C6Grid 'A' 1 5 = true :=
  C6_no_self_conflict C6Grid 'A' 1 5 0 0 0 (by decide) (by decide) (by decide)
    (by decide) (by decide) (by decide)

/-- C7: `solve` is idempotent on its own solutions: a returned solution,
fed back to `solve`, is returned unchanged as the solution. -/
theorem C7_idempotent : ∀ x s : List Char,
    solve x = SolveResult.solution s → solve s = SolveResult.solution s := by
  intro x s h
  obtain ⟨hok, hs, hnd⟩ := solve_eq_solution h
  obtain ⟨hxlen, hxch⟩ := validate_eq_ok hok
  have hslen : s.length = 81 := by
    rw [hs, (solveRecBasic solveFuel x).1]; exact hxlen
  have hsch : CharsOK s := by
    rw [hs]; exact (solveRecSound solveFuel x).1 hxch
  have hval := validate_of_facts hslen hsch
  have hfix : solveRec solveFuel s = s := solveRec_full solveFuel hnd
  have := solve_of_good hval (by rw [hfix]; exact hnd)
  rw [hfix] at this
  exact this

/-- C7 witness instance. -/
theorem C7_witness : solve FGrid = SolveResult.solution FGrid :=
  C7_idempotent FGrid FGrid (by decide)

/-- C8: every 81-character string over `.` and the digits 0-9 (including a
string containing `0`) passes validation. -/
theorem C8_validator_class : ∀ s : List Char, s.length = 81 →
    (∀ ch ∈ s, ch ∈ ['.', '0', '1', '2', '3', '4', '5', '6', '7', '8', '9']) →
    validate s = { ok := true, error := none } := by
  intro s hlen hch
  apply validate_of_facts hlen
  intro ch hm
  have h := hch ch hm
  fin_cases h <;> rfl

/-- C8 witness instance (the string contains a `0`). -/
theorem C8_witness :
    validate C8Grid = { ok := true, error := none } ∧ '0' ∈ C8Grid :=
  ⟨C8_validator_class C8Grid (by decide) (by decide), by decide⟩

/-- C9: the coordinate conversion is invertible on row letters A-I and
columns 1-9 (the linear index is `9*y + x`, at most 80, and maps back to the
same letter/number pair), and rejects out-of-range inputs with the invalid
sentinel. -/
theorem C9_coordinates : ∀ (r : Char) (c : Int),
    (65 ≤ r.toNat ∧ r.toNat ≤ 73 ∧ 1 ≤ c ∧ c ≤ 9 →
      ∃ x y idx : Nat, toBaseZeroCoordinate r c = some (x, y, idx) ∧
        idx = 9 * y + x ∧ idx ≤ 80 ∧ toLetterNumberCoordinate idx = (r, c)) ∧
    ((r.toNat < 65 ∨ 73 < r.toNat ∨ c < 1 ∨ 9 < c) →
      toBaseZeroCoordinate r c = none) := by
  intro r c
  constructor
  · rintro ⟨h65, h73, hc1, hc9⟩
    refine ⟨(c - 1).toNat, r.toNat - 65, 9 * (r.toNat - 65) + (c - 1).toNat, ?_, rfl,
      by omega, ?_⟩
    · simp only [toBaseZeroCoordinate]
      rw [if_neg (by omega)]
      simp only [Option.some.injEq, Prod.mk.injEq]
      refine ⟨trivial, by omega, by omega⟩
    · unfold toLetterNumberCoordinate
      have hy : (9 * (r.toNat - 65) + (c - 1).toNat) / 9 = r.toNat - 65 := by omega
      have hx : (9 * (r.toNat - 65) + (c - 1).toNat) % 9 = (c - 1).toNat := by omega
      rw [hy, hx]
      have h1 : rowLetters.getD (r.toNat - 65) 'A' = r := by
        apply charToNat_inj
        rw [rowLetters_getD _ (by omega)]
        omega
      simp only [Prod.mk.injEq]
      exact ⟨h1, by omega⟩
  · intro h
    simp only [toBaseZeroCoordinate]
    rw [if_pos (by omega)]

/-- C9 witness instance. -/
theorem C9_witness :
    (∃ x y idx : Nat, toBaseZeroCoordinate 'A' 1 = some (x, y, idx) ∧
      idx = 9 * y + x ∧ idx ≤ 80 ∧ toLetterNumberCoordinate idx = ('A', 1)) ∧
    toBaseZeroCoordinate 'A' 0 = none :=
  ⟨(C9_coordinates 'A' 1).1 (by decide), (C9_coordinates 'A' 0).2 (by decide)⟩

/-- C10: `solve` preserves the givens: every cell filled in the input
reappears unchanged at the same index of the returned solution. -/
theorem C10_preserves_givens : ∀ p s : List Char,
    solve p = SolveResult.solution s →
    ∀ i : Nat, i < 81 → ∀ c : Char, p[i]? = some c → c ≠ '.' → s[i]? = some c := by
  intro p s h i hi c hp hcd
  obtain ⟨hok, hs, hnd⟩ := solve_eq_solution h
  rw [hs, (solveRecBasic solveFuel p).2.1 i
    (by rw [hp]; intro hcc; injection hcc with hcc; exact hcd hcc)]
  exact hp

/-- C10 witness instance. -/
theorem C10_witness : FGrid[0]? = some '7' :=
  C10_preserves_givens FGrid FGrid (by decide) 0 (by decide) '7' (by decide) (by decide)
